import Mathlib

/-
Verification of the maximum-likelihood amplitude estimation core
(qiskit/algorithms/amplitude_estimators/mlae.py).

The Python floating-point arithmetic is embedded over the real numbers ℝ.
External scipy routines (norm.ppf, chi2.ppf, the brute minimizer) are
collaborators outside this module; the quantile functions are passed as
explicit function parameters, faithfully to how the code consumes single
values of them.
-/

namespace Mlae

/- Python exception kinds raised by the module. -/
inductive PyError where
  | valueError
  | indexError
  | notImplementedError
  deriving DecidableEq, Repr

/- One entry of result.circuit_results: either a statevector (a numpy
array or list of amplitudes, the analytic regime) or a dictionary of
measurement counts (the sampled regime).  Amplitudes are modelled as real
numbers; the counts dictionary as an association list. -/
inductive CircuitDatum where
  | statevector (amplitudes : List ℝ)
  | counts (tbl : List (String × ℕ))

/- Models `isinstance(data, (list, np.ndarray))` from line 206/570 of the
source: statevector entries are lists or numpy arrays, counts are dicts. -/
def CircuitDatum.isAnalytic : CircuitDatum → Bool
  | .statevector _ => true
  | .counts _ => false

/- The fields of MaximumLikelihoodAmplitudeEstimationResult that the
verified functions read. -/
structure MlaeResult where
  evaluationSchedule : List ℤ
  shots : ℕ
  goodCounts : List ℝ
  theta : ℝ
  estimation : ℝ
  fisherInformation : ℝ
  postProcessing : ℝ → ℝ
  circuitResults : List CircuitDatum

/- Python's int() conversion applied to a float: truncation toward zero. -/
noncomputable def pyInt (x : ℝ) : ℤ :=
  if 0 ≤ x then ⌊x⌋ else -⌊-x⌋

/- The default number of grid evaluations,
`max(10000, int(np.pi / 2 * 1000 * 2 * k))` (line 97), where `k` is the
last entry of the evaluation schedule. -/
noncomputable def defaultNevals (k : ℤ) : ℤ :=
  max 10000 (pyInt (Real.pi / 2 * 1000 * 2 * (k : ℝ)))

/- The number of grid points as the specification states it, with
`round` in place of the code's int() truncation. -/
noncomputable def specNevals (k : ℤ) : ℤ :=
  max 10000 (round (Real.pi / 2 * 1000 * 2 * (k : ℝ)))

/- The configuration assembled by the constructor: the validated
evaluation schedule, and, when the default brute-force minimizer is
installed, its number of grid evaluations. -/
structure MlaeConfig where
  evaluationSchedule : List ℤ
  nevalsIfDefault : Option ℤ
  deriving DecidableEq

/- MaximumLikelihoodAmplitudeEstimation.__init__ (lines 84-104).  The
evaluation schedule is an int (expanded to the exponential schedule) or an
explicit list; `customMinimizer` is true when the caller supplies its own
minimizer.  `self._evaluation_schedule[-1]` on an empty list raises
IndexError in Python, modelled through getLast?. -/
noncomputable def mlaeInit (evaluation_schedule : ℤ ⊕ List ℤ)
    (customMinimizer : Bool) : Except PyError MlaeConfig :=
  match evaluation_schedule with
  | .inl m =>
    if m < 0 then .error .valueError
    else
      let sched := 0 :: (List.range m.toNat).map (fun j => (2 : ℤ) ^ j)
      if customMinimizer then .ok ⟨sched, none⟩
      else
        match sched.getLast? with
        | none => .error .indexError
        | some k => .ok ⟨sched, some (defaultNevals k)⟩
  | .inr l =>
    if l.any (fun x => decide (x < 0)) then .error .valueError
    else if customMinimizer then .ok ⟨l, none⟩
    else
      match l.getLast? with
      | none => .error .indexError
      | some k => .ok ⟨l, some (defaultNevals k)⟩

/-- C3: the spec demands that an empty schedule list be rejected with the
InvalidInput (ValueError) validation error at construction time.  The code
does not do that: with the default minimizer the empty list reaches
`self._evaluation_schedule[-1]` and dies with IndexError, and with a
user-supplied minimizer construction succeeds outright.  The code also
contradicts its own docstring ("Raises ValueError: If the number of oracle
circuits is smaller than 1"). -/
theorem empty_schedule_not_rejected_with_valueError :
    mlaeInit (.inr []) false = .error .indexError ∧
    mlaeInit (.inr []) true = .ok ⟨[], none⟩ ∧
    mlaeInit (.inr []) false ≠ .error .valueError := by
  refine ⟨rfl, rfl, ?_⟩
  intro h
  simp [mlaeInit] at h

/-- C3 (companion): negative entries are, as claimed, rejected with
ValueError at configuration time, for list and int schedules alike. -/
theorem negative_schedule_rejected (l : List ℤ) (m : ℤ)
    (hl : ∃ x ∈ l, x < 0) (hm : m < 0) (custom : Bool) :
    mlaeInit (.inr l) custom = .error .valueError ∧
    mlaeInit (.inl m) custom = .error .valueError := by
  obtain ⟨x, hx, hxneg⟩ := hl
  constructor
  · have : l.any (fun x => decide (x < 0)) = true := by
      simp only [List.any_eq_true, decide_eq_true_eq]
      exact ⟨x, hx, hxneg⟩
    simp [mlaeInit, this]
  · simp [mlaeInit, hm]

/-- C3 (companion witness): the negative-entry rejection applied at the
concrete schedules [0, -1] and -2. -/
theorem negative_schedule_rejected_witness :
    (∃ x ∈ ([0, -1] : List ℤ), x < 0) ∧
    mlaeInit (.inr [0, -1]) false = .error .valueError ∧
    mlaeInit (.inl (-2)) false = .error .valueError := by
  refine ⟨⟨-1, by decide, by decide⟩, ?_⟩
  have h := negative_schedule_rejected [0, -1] (-2) ⟨-1, by decide, by decide⟩
    (by decide) false
  exact h

/-- C8 counterexample: with schedule [5] the default minimizer is built
with `int(np.pi / 2 * 1000 * 2 * 5) = int(5000·π) = 15707` grid points
(truncation), while the claimed `max(10000, round(π/2·1000·2·5)) = 15708`
(5000·π ≈ 15707.96 rounds up).  The claim is false as stated. -/
theorem default_nevals_counterexample :
    mlaeInit (.inr [5]) false = .ok ⟨[5], some 15707⟩ ∧
    specNevals 5 = 15708 ∧ (15707 : ℤ) ≠ 15708 := by
  have hx : Real.pi / 2 * 1000 * 2 * ((5 : ℤ) : ℝ) = 5000 * Real.pi := by
    push_cast; ring
  have hgt := Real.pi_gt_d6
  have hlt := Real.pi_lt_d6
  have hfloor : ⌊(5000 : ℝ) * Real.pi⌋ = 15707 := by
    rw [Int.floor_eq_iff]
    constructor
    · push_cast; nlinarith
    · push_cast; nlinarith
  have hdef : defaultNevals 5 = 15707 := by
    unfold defaultNevals pyInt
    rw [hx, if_pos (by positivity), hfloor]
    decide
  refine ⟨?_, ?_, by decide⟩
  · simp [mlaeInit, hdef]
  · unfold specNevals
    rw [hx]
    have hround : round ((5000 : ℝ) * Real.pi) = 15708 := by
      rw [round_eq, Int.floor_eq_iff]
      constructor
      · push_cast; nlinarith
      · push_cast; nlinarith
    rw [hround]
    decide

/-- C8 amended: for every non-empty validated schedule list with last
entry k_max, when no custom minimizer is supplied the constructor installs
the default minimizer with max(10000, ⌊π/2 · 1000 · 2 · k_max⌋) grid
evaluation points — floor (Python int() truncation), not round. -/
theorem default_nevals_eq_floor (l : List ℤ) (h1 : ∀ x ∈ l, 0 ≤ x)
    (h2 : l ≠ []) :
    mlaeInit (.inr l) false =
      .ok ⟨l, some (max 10000
        ⌊Real.pi / 2 * 1000 * 2 * ((l.getLast h2 : ℤ) : ℝ)⌋)⟩ := by
  have hany : l.any (fun x => decide (x < 0)) = false := by
    rw [List.any_eq_false]
    intro x hx
    simp only [decide_eq_true_eq, not_lt]
    exact h1 x hx
  have hk : (0 : ℝ) ≤ ((l.getLast h2 : ℤ) : ℝ) := by
    exact_mod_cast h1 _ (List.getLast_mem h2)
  have hval : (0 : ℝ) ≤ Real.pi / 2 * 1000 * 2 * ((l.getLast h2 : ℤ) : ℝ) := by
    have hpi := Real.pi_pos
    nlinarith
  have hlast : l.getLast? = some (l.getLast h2) :=
    List.getLast?_eq_getLast l h2
  simp [mlaeInit, hany, hlast, defaultNevals, pyInt, if_pos hval]

/-- C8 amended witness: the floor formula applied at the concrete
schedule [5]. -/
theorem default_nevals_eq_floor_witness :
    (∀ x ∈ ([5] : List ℤ), 0 ≤ x) ∧
    mlaeInit (.inr [5]) false =
      .ok ⟨[5], some (max 10000
        ⌊Real.pi / 2 * 1000 * 2 * ((5 : ℤ) : ℝ)⌋)⟩ := by
  refine ⟨by decide, ?_⟩
  have h := default_nevals_eq_floor [5] (by decide) (by decide)
  simpa using h

/- Helper: a mapped list sum as an indexed sum over Finset.range. -/
lemma map_sum_eq_range_sum {α : Type} (l : List α) (f : α → ℝ) (d : α) :
    (l.map f).sum =
      Finset.sum (Finset.range l.length) (fun i => f (l.getD i d)) := by
  induction l with
  | nil => simp
  | cons a t ih =>
    rw [List.map_cons, List.sum_cons, List.length_cons, Finset.sum_range_succ']
    simp only [List.getD_cons_succ, List.getD_cons_zero]
    rw [ih]
    ring

/- Helper: summing a function of (constant shots, truncated schedule)
pairs, as the code's zip does, equals the indexed sum of the spec. -/
lemma zip_replicate_take_sum (s : ℝ) (sched : List ℤ) (n m : ℕ)
    (f : ℝ × ℤ → ℝ) (hm : m ≤ n) (hs : m ≤ sched.length) :
    (((List.replicate n s).zip (sched.take m)).map f).sum =
      Finset.sum (Finset.range m) (fun i => f (s, sched.getD i 0)) := by
  have hlen : ((List.replicate n s).zip (sched.take m)).length = m := by
    simp only [List.length_zip, List.length_replicate, List.length_take]
    omega
  rw [map_sum_eq_range_sum _ f (s, 0), hlen]
  apply Finset.sum_congr rfl
  intro i hi
  have hi' : i < m := Finset.mem_range.mp hi
  have h1 : i < ((List.replicate n s).zip (sched.take m)).length := by omega
  rw [List.getD_eq_getElem _ _ h1]
  rw [List.getElem_zip]
  rw [List.getElem_replicate, List.getElem_take]
  rw [List.getD_eq_getElem _ _ (lt_of_lt_of_le hi' hs)]

/- Helper: the three-way zip of (constant shots, good counts, truncated
schedule) summed, as an indexed sum. -/
lemma zip3_replicate_take_sum (s : ℝ) (good : List ℝ) (sched : List ℤ)
    (m : ℕ) (f : ℝ × ℝ × ℤ → ℝ) (hm : m ≤ good.length)
    (hs : m ≤ sched.length) :
    (((List.replicate good.length s).zip (good.zip (sched.take m))).map
      f).sum =
      Finset.sum (Finset.range m)
        (fun i => f (s, good.getD i 0, sched.getD i 0)) := by
  have hlen :
      ((List.replicate good.length s).zip (good.zip (sched.take m))).length
        = m := by
    simp only [List.length_zip, List.length_replicate, List.length_take]
    omega
  rw [map_sum_eq_range_sum _ f (s, 0, 0), hlen]
  apply Finset.sum_congr rfl
  intro i hi
  have hi' : i < m := Finset.mem_range.mp hi
  have h1 :
      i < ((List.replicate good.length s).zip
        (good.zip (sched.take m))).length := by omega
  rw [List.getD_eq_getElem _ _ h1]
  rw [List.getElem_zip, List.getElem_zip]
  rw [List.getElem_replicate, List.getElem_take]
  rw [List.getD_eq_getElem _ _ (lt_of_lt_of_le hi' hm),
    List.getD_eq_getElem _ _ (lt_of_lt_of_le hi' hs)]

/- _compute_fisher_information (lines 413-468).  `a` is the estimate,
`theta_a = arcsin(sqrt(a))`, `one_hits = result.good_counts`,
`all_hits = [result.shots] * len(one_hits)`; with `num_sum_terms` the
schedule is truncated (the Python zip stops at the shortest list).  The
observed branch squares the normalized score and divides by
`len(all_hits)` — the untruncated length. -/
noncomputable def compute_fisher_information (r : MlaeResult)
    (numSumTerms : Option ℕ) (observed : Bool) : ℝ :=
  let a := r.estimation
  let theta_a := Real.arcsin (Real.sqrt a)
  let one_hits := r.goodCounts
  let all_hits : List ℝ := List.replicate one_hits.length ((r.shots : ℕ) : ℝ)
  let evaluation_schedule :=
    match numSumTerms with
    | some m => r.evaluationSchedule.take m
    | none => r.evaluationSchedule
  if observed then
    let d_loglik :=
      ((all_hits.zip (one_hits.zip evaluation_schedule)).map
        (fun q =>
          ((2 * q.2.2 + 1 : ℤ) : ℝ) *
            (q.2.1 / Real.tan (((2 * q.2.2 + 1 : ℤ) : ℝ) * theta_a) +
              (q.1 - q.2.1) *
                Real.tan (((2 * q.2.2 + 1 : ℤ) : ℝ) * theta_a)))).sum
    (d_loglik / Real.sqrt (a * (1 - a))) ^ 2 / (all_hits.length : ℝ)
  else
    ((all_hits.zip evaluation_schedule).map
      (fun q => q.1 * ((2 * q.2 + 1 : ℤ) : ℝ) ^ 2)).sum / (a * (1 - a))

/- The theoretical Fisher information as the spec states it:
`[Σ_i shots_i·(2k_i+1)²] / (â·(1−â))` over the first m entries. -/
noncomputable def specTheoreticalFisher (r : MlaeResult) (m : ℕ) : ℝ :=
  (Finset.sum (Finset.range m) (fun i =>
    ((r.shots : ℕ) : ℝ) *
      ((2 * r.evaluationSchedule.getD i 0 + 1 : ℤ) : ℝ) ^ 2))
    / (r.estimation * (1 - r.estimation))

/- The observed-information score sum as the spec states it:
`Σ_i (2k_i+1)·(h_i/tan((2k_i+1)·θ̂) + (shots_i−h_i)·tan((2k_i+1)·θ̂))`
over the first m schedule entries, at `θ̂ = arcsin(sqrt(â))`. -/
noncomputable def specObservedScore (r : MlaeResult) (m : ℕ) : ℝ :=
  Finset.sum (Finset.range m) (fun i =>
    ((2 * r.evaluationSchedule.getD i 0 + 1 : ℤ) : ℝ) *
      (r.goodCounts.getD i 0 /
        Real.tan (((2 * r.evaluationSchedule.getD i 0 + 1 : ℤ) : ℝ) *
          Real.arcsin (Real.sqrt r.estimation)) +
        (((r.shots : ℕ) : ℝ) - r.goodCounts.getD i 0) *
          Real.tan (((2 * r.evaluationSchedule.getD i 0 + 1 : ℤ) : ℝ) *
            Real.arcsin (Real.sqrt r.estimation))))

/- The observed Fisher information exactly as claim C5 states it: the
score over the first m entries, divided by sqrt(â(1−â)), squared, and
normalized by m — the number of entries included in the truncated sum. -/
noncomputable def specObservedFisher (r : MlaeResult) (m : ℕ) : ℝ :=
  (specObservedScore r m / Real.sqrt (r.estimation * (1 - r.estimation))) ^ 2
    / (m : ℝ)

/-- C7: the theoretical Fisher information equals
`[Σ_i shots_i·(2k_i+1)²] / (â·(1−â))`, over all schedule entries by
default and over the first m entries when truncated. -/
theorem theoretical_fisher_formula (r : MlaeResult) (m : ℕ)
    (hm : m ≤ r.goodCounts.length)
    (hlen : r.goodCounts.length = r.evaluationSchedule.length)
    (h0 : 0 < r.estimation) (h1 : r.estimation < 1) :
    compute_fisher_information r none false =
      specTheoreticalFisher r r.evaluationSchedule.length ∧
    compute_fisher_information r (some m) false =
      specTheoreticalFisher r m := by
  constructor
  · unfold compute_fisher_information specTheoreticalFisher
    simp only [Bool.false_eq_true, if_false]
    conv_lhs => rw [← List.take_length r.evaluationSchedule]
    rw [zip_replicate_take_sum _ _ _ _ _ (le_of_eq hlen.symm) (le_refl _)]
  · unfold compute_fisher_information specTheoreticalFisher
    simp only [Bool.false_eq_true, if_false]
    rw [zip_replicate_take_sum _ _ _ _ _ hm (hlen ▸ hm)]

/- A concrete sampled-regime result: schedule [0, 1], 3 shots per entry,
one success at each power, estimate 1/2. -/
noncomputable def r7 : MlaeResult :=
  ⟨[0, 1], 3, [1, 1], 0, 1/2, 0, fun x => x, [CircuitDatum.counts []]⟩

/-- C7 witness: the theoretical Fisher formula applied to the concrete
result r7 (truncation length 1), and its concrete value
(3·1² + 3·3²)/(1/2 · 1/2) = 120 on the full schedule. -/
theorem theoretical_fisher_formula_witness :
    (1 ≤ r7.goodCounts.length ∧
      r7.goodCounts.length = r7.evaluationSchedule.length ∧
      0 < r7.estimation ∧ r7.estimation < 1) ∧
    (compute_fisher_information r7 none false =
        specTheoreticalFisher r7 r7.evaluationSchedule.length ∧
      compute_fisher_information r7 (some 1) false =
        specTheoreticalFisher r7 1) ∧
    compute_fisher_information r7 none false = 120 := by
  have hhyp : 1 ≤ r7.goodCounts.length ∧
      r7.goodCounts.length = r7.evaluationSchedule.length ∧
      0 < r7.estimation ∧ r7.estimation < 1 := by
    refine ⟨by simp [r7], by simp [r7], by norm_num [r7], by norm_num [r7]⟩
  have hthm := theoretical_fisher_formula r7 1 hhyp.1 hhyp.2.1 hhyp.2.2.1
    hhyp.2.2.2
  refine ⟨hhyp, hthm, ?_⟩
  rw [hthm.1]
  have hl : r7.evaluationSchedule.length = 2 := rfl
  rw [hl]
  unfold specTheoreticalFisher
  rw [show (2 : ℕ) = 1 + 1 from rfl, Finset.sum_range_succ,
    Finset.sum_range_succ, Finset.sum_range_zero]
  norm_num [r7]

/- Helper: sqrt(1/2) = sqrt(2)/2. -/
lemma sqrt_half_eq : Real.sqrt (1/2) = Real.sqrt 2 / 2 := by
  rw [show (1/2 : ℝ) = (Real.sqrt 2 / 2) ^ 2 by
    rw [div_pow, Real.sq_sqrt (by norm_num : (0:ℝ) ≤ 2)]; norm_num]
  exact Real.sqrt_sq (by positivity)

/- Helper: the angle corresponding to the amplitude 1/2 is pi/4. -/
lemma arcsin_sqrt_half : Real.arcsin (Real.sqrt (1/2)) = Real.pi / 4 := by
  rw [sqrt_half_eq, ← Real.sin_pi_div_four]
  exact Real.arcsin_sin (by linarith [Real.pi_pos]) (by linarith [Real.pi_pos])

/- Helper: sqrt(1/2 · (1 − 1/2)) = 1/2. -/
lemma sqrt_quarter_eq : Real.sqrt ((1/2 : ℝ) * (1 - 1/2)) = 1/2 := by
  rw [show (1/2 : ℝ) * (1 - 1/2) = (1/2) ^ 2 by norm_num]
  exact Real.sqrt_sq (by norm_num)

/- A concrete sampled-regime result: schedule [0, 0], 2 shots per entry,
one success at each entry, estimate 1/2. -/
noncomputable def r5 : MlaeResult :=
  ⟨[0, 0], 2, [1, 1], 0, 1/2, 0, fun x => x, [CircuitDatum.counts []]⟩

/-- C5 counterexample: on the result r5 (two schedule entries) truncated
to m = 1 sum term, the code's observed Fisher information is
(2/(1/2))²/2 = 8 — it normalizes by the total number of schedule entries
(len(all_hits) = 2) — while the claimed formula, normalizing by the m = 1
entries included in the truncated sum, gives 16. -/
theorem observed_fisher_truncation_counterexample :
    compute_fisher_information r5 (some 1) true = 8 ∧
    specObservedFisher r5 1 = 16 ∧ (8 : ℝ) ≠ 16 := by
  have hsc : ((2 * (0 : ℤ) + 1 : ℤ) : ℝ) = 1 := by norm_num
  have htn : Real.tan (((2 * (0 : ℤ) + 1 : ℤ) : ℝ) *
      Real.arcsin (Real.sqrt (1/2))) = 1 := by
    rw [hsc, one_mul, arcsin_sqrt_half]
    exact Real.tan_pi_div_four
  refine ⟨?_, ?_, by norm_num⟩
  · unfold compute_fisher_information
    rw [if_pos rfl]
    show ((((List.replicate 2 ((2:ℕ):ℝ)).zip ([(1:ℝ), 1].zip
      ([(0:ℤ), 0].take 1))).map _).sum / _) ^ 2 / _ = 8
    simp only [List.replicate, List.take, List.zip, List.zipWith,
      List.map_cons, List.map_nil, List.sum_cons, List.sum_nil]
    rw [show r5.estimation = 1/2 from rfl]
    rw [htn]
    rw [sqrt_quarter_eq]
    norm_num
  · unfold specObservedFisher specObservedScore
    rw [Finset.sum_range_one]
    simp only [r5, List.getD_cons_zero]
    rw [htn]
    rw [sqrt_quarter_eq]
    norm_num

/-- C5 amended: the observed Fisher information is the claimed score sum
over the first m entries, divided by sqrt(â(1−â)) and squared, but
normalized by the TOTAL number of schedule entries (len(good_counts)),
not by the number m of entries included in the truncated sum; by default
(no truncation) the two coincide. -/
theorem observed_fisher_normalized_by_total (r : MlaeResult) (m : ℕ)
    (hm : m ≤ r.goodCounts.length)
    (hlen : r.goodCounts.length = r.evaluationSchedule.length) :
    compute_fisher_information r (some m) true =
      (specObservedScore r m /
        Real.sqrt (r.estimation * (1 - r.estimation))) ^ 2
        / (r.goodCounts.length : ℝ) ∧
    compute_fisher_information r none true =
      (specObservedScore r r.goodCounts.length /
        Real.sqrt (r.estimation * (1 - r.estimation))) ^ 2
        / (r.goodCounts.length : ℝ) := by
  constructor
  · unfold compute_fisher_information specObservedScore
    rw [if_pos rfl]
    rw [zip3_replicate_take_sum _ _ _ _ _ hm (hlen ▸ hm)]
    rw [List.length_replicate]
  · unfold compute_fisher_information specObservedScore
    rw [if_pos rfl]
    conv_lhs => rw [← List.take_length r.evaluationSchedule]
    rw [zip3_replicate_take_sum _ _ _ _ _ (le_of_eq hlen.symm) (le_refl _)]
    rw [List.length_replicate, hlen]

/-- C5 amended witness: the corrected normalization applied to the
concrete result r5 with truncation length 1. -/
theorem observed_fisher_normalized_by_total_witness :
    (1 ≤ r5.goodCounts.length ∧
      r5.goodCounts.length = r5.evaluationSchedule.length) ∧
    compute_fisher_information r5 (some 1) true =
      (specObservedScore r5 1 /
        Real.sqrt (r5.estimation * (1 - r5.estimation))) ^ 2
        / (r5.goodCounts.length : ℝ) := by
  have hhyp : 1 ≤ r5.goodCounts.length ∧
      r5.goodCounts.length = r5.evaluationSchedule.length := by
    constructor <;> simp [r5]
  exact ⟨hhyp, (observed_fisher_normalized_by_total r5 1 hhyp.1 hhyp.2).1⟩

/- The objective function built inside compute_mle (lines 253-260):
`for i, k in enumerate(self._evaluation_schedule)` accumulates
`log(sin((2k+1)θ)²)·good_counts[i] + log(cos((2k+1)θ)²)·(all_counts[i] −
good_counts[i])` and the function returns the negated total.  The Python
indexing good_counts[i] is modelled by getD; out-of-range access raises
in Python and is outside the verified domain. -/
noncomputable def mleObjective (sched : List ℤ) (good all : List ℝ)
    (θ : ℝ) : ℝ :=
  -(((sched.enum).map (fun p =>
    Real.log (Real.sin (((2 * p.2 + 1 : ℤ) : ℝ) * θ) ^ 2) * good.getD p.1 0 +
    Real.log (Real.cos (((2 * p.2 + 1 : ℤ) : ℝ) * θ) ^ 2) *
      (all.getD p.1 0 - good.getD p.1 0))).sum)

/- The negative log-likelihood as the spec states it: minus the sum over
all schedule entries i of `successes[i]·log(sin²((2k_i+1)θ)) +
(totals[i]−successes[i])·log(cos²((2k_i+1)θ))`. -/
noncomputable def specNegLoglikelihood (sched : List ℤ) (good all : List ℝ)
    (θ : ℝ) : ℝ :=
  -(Finset.sum (Finset.range sched.length) (fun i =>
    good.getD i 0 *
      Real.log (Real.sin (((2 * sched.getD i 0 + 1 : ℤ) : ℝ) * θ) ^ 2) +
    (all.getD i 0 - good.getD i 0) *
      Real.log (Real.cos (((2 * sched.getD i 0 + 1 : ℤ) : ℝ) * θ) ^ 2)))

/-- C6: for every schedule, success counts, total counts and θ, the MLE
objective equals minus the sum over all schedule entries of
`successes[i]·log(sin²((2k_i+1)θ)) + (totals[i]−successes[i])·log(cos²((2k_i+1)θ))`. -/
theorem mle_objective_formula (sched : List ℤ) (good all : List ℝ)
    (θ : ℝ) :
    mleObjective sched good all θ = specNegLoglikelihood sched good all θ := by
  unfold mleObjective specNegLoglikelihood
  rw [map_sum_eq_range_sum _ _ (0, 0)]
  rw [List.enum_length]
  congr 1
  apply Finset.sum_congr rfl
  intro i hi
  have hi' : i < sched.length := Finset.mem_range.mp hi
  have h1 : i < sched.enum.length := by rw [List.enum_length]; exact hi'
  rw [List.getD_eq_getElem _ _ h1, List.getElem_enum]
  rw [List.getD_eq_getElem sched 0 hi']
  ring

/- numpy.linspace(a, b, n): n evenly spaced points, endpoints included
(for n = 1 the single point a, for n = 0 the empty array). -/
noncomputable def linspace (a b : ℝ) (n : ℕ) : List ℝ :=
  if n ≤ 1 then (List.range n).map (fun _ => a)
  else (List.range n).map
    (fun (j : ℕ) => a + (j : ℝ) * (b - a) / ((n : ℝ) - 1))

/- _safe_min (lines 401-404): np.min of the array, or the default when
the array is empty. -/
noncomputable def safe_min (arr : List ℝ) (dflt : ℝ) : ℝ :=
  match arr with
  | [] => dflt
  | x :: xs => xs.foldl min x

/- _safe_max (lines 407-410). -/
noncomputable def safe_max (arr : List ℝ) (dflt : ℝ) : ℝ :=
  match arr with
  | [] => dflt
  | x :: xs => xs.foldl max x

lemma foldl_min_le_init (xs : List ℝ) : ∀ y : ℝ, xs.foldl min y ≤ y := by
  induction xs with
  | nil => intro y; exact le_refl y
  | cons a t ih =>
    intro y
    exact le_trans (ih (min y a)) (min_le_left y a)

lemma foldl_min_le_mem (xs : List ℝ) :
    ∀ (y x : ℝ), x ∈ xs → xs.foldl min y ≤ x := by
  induction xs with
  | nil => intro y x hx; cases hx
  | cons a t ih =>
    intro y x hx
    rcases List.mem_cons.mp hx with h | h
    · subst h
      exact le_trans (foldl_min_le_init t (min y x)) (min_le_right y x)
    · exact ih (min y a) x h

lemma foldl_min_mem (xs : List ℝ) : ∀ y : ℝ, xs.foldl min y ∈ y :: xs := by
  induction xs with
  | nil => intro y; simp
  | cons a t ih =>
    intro y
    have h := ih (min y a)
    rcases List.mem_cons.mp h with h1 | h1
    · rw [List.foldl_cons, h1]
      rcases min_choice y a with hc | hc <;> rw [hc]
      · exact List.mem_cons_self y (a :: t)
      · exact List.mem_cons_of_mem y (List.mem_cons_self a t)
    · exact List.mem_cons_of_mem y (List.mem_cons_of_mem a h1)

lemma foldl_max_init_le (xs : List ℝ) : ∀ y : ℝ, y ≤ xs.foldl max y := by
  induction xs with
  | nil => intro y; exact le_refl y
  | cons a t ih =>
    intro y
    exact le_trans (le_max_left y a) (ih (max y a))

lemma foldl_max_mem_le (xs : List ℝ) :
    ∀ (y x : ℝ), x ∈ xs → x ≤ xs.foldl max y := by
  induction xs with
  | nil => intro y x hx; cases hx
  | cons a t ih =>
    intro y x hx
    rcases List.mem_cons.mp hx with h | h
    · subst h
      exact le_trans (le_max_right y x) (foldl_max_init_le t (max y x))
    · exact ih (max y a) x h

lemma foldl_max_mem (xs : List ℝ) : ∀ y : ℝ, xs.foldl max y ∈ y :: xs := by
  induction xs with
  | nil => intro y; simp
  | cons a t ih =>
    intro y
    have h := ih (max y a)
    rcases List.mem_cons.mp h with h1 | h1
    · rw [List.foldl_cons, h1]
      rcases max_choice y a with hc | hc <;> rw [hc]
      · exact List.mem_cons_self y (a :: t)
      · exact List.mem_cons_of_mem y (List.mem_cons_self a t)
    · exact List.mem_cons_of_mem y (List.mem_cons_of_mem a h1)

lemma safe_min_le (l : List ℝ) (d x : ℝ) (hx : x ∈ l) : safe_min l d ≤ x := by
  cases l with
  | nil => cases hx
  | cons a t =>
    rcases List.mem_cons.mp hx with h | h
    · subst h
      exact foldl_min_le_init t x
    · exact foldl_min_le_mem t a x h

lemma safe_min_mem (l : List ℝ) (d : ℝ) (h : l ≠ []) : safe_min l d ∈ l := by
  cases l with
  | nil => exact absurd rfl h
  | cons a t => exact foldl_min_mem t a

lemma le_safe_max (l : List ℝ) (d x : ℝ) (hx : x ∈ l) : x ≤ safe_max l d := by
  cases l with
  | nil => cases hx
  | cons a t =>
    rcases List.mem_cons.mp hx with h | h
    · subst h
      exact foldl_max_init_le t x
    · exact foldl_max_mem_le t a x h

lemma safe_max_mem (l : List ℝ) (d : ℝ) (h : l ≠ []) : safe_max l d ∈ l := by
  cases l with
  | nil => exact absurd rfl h
  | cons a t => exact foldl_max_mem t a

lemma linspace_mem_bounds (a b : ℝ) (n : ℕ) (hab : a ≤ b) (x : ℝ)
    (hx : x ∈ linspace a b n) : a ≤ x ∧ x ≤ b := by
  unfold linspace at hx
  by_cases hn : n ≤ 1
  · rw [if_pos hn, List.mem_map] at hx
    obtain ⟨j, hj, rfl⟩ := hx
    exact ⟨le_refl a, hab⟩
  · rw [if_neg hn, List.mem_map] at hx
    push_neg at hn
    obtain ⟨j, hj, rfl⟩ := hx
    have hj' : j < n := by simpa using hj
    have hn1 : (1 : ℝ) ≤ (n : ℝ) - 1 := by
      have h2 : (2 : ℕ) ≤ n := hn
      have h2' : (2 : ℝ) ≤ (n : ℝ) := by exact_mod_cast h2
      linarith
    have hjr : (j : ℝ) ≤ (n : ℝ) - 1 := by
      have hj1 : j + 1 ≤ n := hj'
      have hj1' : (j : ℝ) + 1 ≤ (n : ℝ) := by exact_mod_cast hj1
      linarith
    constructor
    · have hstep : 0 ≤ (j : ℝ) * (b - a) / ((n : ℝ) - 1) := by
        apply div_nonneg
        · exact mul_nonneg (Nat.cast_nonneg j) (by linarith)
        · linarith
      linarith
    · have h2 : (j : ℝ) * (b - a) / ((n : ℝ) - 1) ≤ b - a := by
        rw [div_le_iff₀ (by linarith : (0 : ℝ) < (n : ℝ) - 1)]
        calc (j : ℝ) * (b - a) ≤ ((n : ℝ) - 1) * (b - a) :=
              mul_le_mul_of_nonneg_right hjr (by linarith)
          _ = (b - a) * ((n : ℝ) - 1) := mul_comm _ _
      linarith

/- The log-likelihood scanned by _likelihood_ratio_confint (lines
523-528): `one_counts = result.good_counts`,
`all_counts = [result.shots] * len(one_counts)`, so `all_counts[i]` is
`result.shots` for every in-range index; out-of-range Python indexing
raises and is outside the verified domain. -/
noncomputable def lrLoglikelihood (r : MlaeResult) (θ : ℝ) : ℝ :=
  ((r.evaluationSchedule.enum).map (fun p =>
    Real.log (Real.sin (((2 * p.2 + 1 : ℤ) : ℝ) * θ) ^ 2) *
      r.goodCounts.getD p.1 0 +
    Real.log (Real.cos (((2 * p.2 + 1 : ℤ) : ℝ) * θ) ^ 2) *
      (((r.shots : ℕ) : ℝ) - r.goodCounts.getD p.1 0))).sum

/- The grid size used by _likelihood_ratio_confint (lines 520-521):
the caller's nevals, or the default from the last schedule power
(`result.evaluation_schedule[-1]`; empty schedules raise in Python). -/
noncomputable def lrNevals (r : MlaeResult) (nevalsOpt : Option ℕ) : ℕ :=
  match nevalsOpt with
  | some n => n
  | none => (defaultNevals (r.evaluationSchedule.getLastD 0)).toNat

/- The scan grid (line 534): `np.linspace(0 + eps, np.pi / 2 - eps,
nevals)` with `eps = 1e-15`. -/
noncomputable def lrThetas (r : MlaeResult) (nevalsOpt : Option ℕ) :
    List ℝ :=
  linspace (1e-15) (Real.pi / 2 - 1e-15) (lrNevals r nevalsOpt)

/- The acceptance threshold (lines 539-541): the log-likelihood at the
fitted angle minus chi2.ppf(1 - alpha, df=1) / 2.  The chi-square
quantile function is an external scipy collaborator, passed in. -/
noncomputable def lrThres (r : MlaeResult) (alpha : ℝ)
    (chi2Ppf : ℝ → ℝ) : ℝ :=
  lrLoglikelihood r r.theta - chi2Ppf (1 - alpha) / 2

/- _likelihood_ratio_confint (lines 504-552): keep the grid angles whose
log-likelihood meets the threshold, take their min/max (full domain [0,
pi/2] when none does), map through a = sin²(θ) and post-process. -/
noncomputable def likelihood_ratio_confint (r : MlaeResult) (alpha : ℝ)
    (nevalsOpt : Option ℕ) (chi2Ppf : ℝ → ℝ) : ℝ × ℝ :=
  let above := (lrThetas r nevalsOpt).filter
    (fun θ => decide (lrThres r alpha chi2Ppf ≤ lrLoglikelihood r θ))
  (r.postProcessing (Real.sin (safe_min above 0) ^ 2),
   r.postProcessing (Real.sin (safe_max above (Real.pi / 2)) ^ 2))

/- _fisher_confint (lines 471-501): the normal approximation
`estimation + normal_quantile / sqrt(fisher_information) * [-1, 1]`,
with the observed information recomputed on demand, and both bounds
passed through result.post_processing before returning.  The
standard-normal quantile function is an external scipy collaborator. -/
noncomputable def fisher_confint (r : MlaeResult) (alpha : ℝ)
    (observed : Bool) (normPpf : ℝ → ℝ) : ℝ × ℝ :=
  let fisher_information :=
    if observed then compute_fisher_information r none true
    else r.fisherInformation
  let normal_quantile := normPpf (1 - alpha / 2)
  (r.postProcessing
      (r.estimation + normal_quantile / Real.sqrt fisher_information * (-1)),
   r.postProcessing
      (r.estimation + normal_quantile / Real.sqrt fisher_information * 1))

/- The Fisher interval in raw [0,1] amplitude space, before any
post-processing: â ∓ z_(1-α/2)/sqrt(I). -/
noncomputable def rawFisherInterval (r : MlaeResult) (alpha : ℝ)
    (observed : Bool) (normPpf : ℝ → ℝ) : ℝ × ℝ :=
  let fi :=
    if observed then compute_fisher_information r none true
    else r.fisherInformation
  (r.estimation - normPpf (1 - alpha / 2) / Real.sqrt fi,
   r.estimation + normPpf (1 - alpha / 2) / Real.sqrt fi)

/- compute_confidence_interval (lines 176-224): the analytic regime
(every circuit result a statevector) short-circuits to the degenerate
interval; otherwise the method name selects the interval; an unknown
name leaves the interval unset and raises NotImplementedError; finally
the post-processing is applied to both bounds when requested. -/
noncomputable def compute_confidence_interval (r : MlaeResult)
    (alpha : ℝ) (kind : String) (applyPostProcessing : Bool)
    (normPpf chi2Ppf : ℝ → ℝ) : Except PyError (ℝ × ℝ) :=
  let interval : Option (ℝ × ℝ) :=
    if r.circuitResults.all CircuitDatum.isAnalytic then
      some (r.estimation, r.estimation)
    else if kind ∈ (["likelihood_ratio", "lr"] : List String) then
      some (likelihood_ratio_confint r alpha none chi2Ppf)
    else if kind ∈ (["fisher", "fi"] : List String) then
      some (fisher_confint r alpha false normPpf)
    else if kind ∈ (["observed_fisher", "observed_information", "oi"] :
        List String) then
      some (fisher_confint r alpha true normPpf)
    else none
  match interval with
  | none => .error .notImplementedError
  | some iv =>
    if applyPostProcessing then
      .ok (r.postProcessing iv.1, r.postProcessing iv.2)
    else .ok iv

/-- C10: when no grid angle's log-likelihood reaches the threshold
ℓ_max − χ²/2, the likelihood-ratio method returns, without failing, the
full-domain bounds 0 and π/2 mapped through a = sin²(θ), i.e. the
interval [0, 1] before post-processing. -/
theorem lr_empty_support_full_domain (r : MlaeResult) (alpha : ℝ)
    (nOpt : Option ℕ) (cpf : ℝ → ℝ)
    (h : ∀ θ ∈ lrThetas r nOpt,
      lrLoglikelihood r θ < lrThres r alpha cpf) :
    likelihood_ratio_confint r alpha nOpt cpf =
      (r.postProcessing (Real.sin 0 ^ 2),
        r.postProcessing (Real.sin (Real.pi / 2) ^ 2)) ∧
    likelihood_ratio_confint r alpha nOpt cpf =
      (r.postProcessing 0, r.postProcessing 1) := by
  have hfilter : ((lrThetas r nOpt).filter
      (fun θ => decide (lrThres r alpha cpf ≤ lrLoglikelihood r θ))) = [] := by
    rw [List.filter_eq_nil_iff]
    intro θ hθ
    simp only [decide_eq_true_eq]
    exact not_le.mpr (h θ hθ)
  have hmain : likelihood_ratio_confint r alpha nOpt cpf =
      (r.postProcessing (Real.sin 0 ^ 2),
        r.postProcessing (Real.sin (Real.pi / 2) ^ 2)) := by
    simp only [likelihood_ratio_confint]
    rw [hfilter]
    rfl
  refine ⟨hmain, ?_⟩
  rw [hmain, Real.sin_zero, Real.sin_pi_div_two]
  norm_num

/-- C9 amended: the likelihood-ratio interval (identity post-processing)
contains the point estimate â = sin²(θ̂) whenever the fitted angle θ̂ is
itself one of the scanned grid angles and the chi-square quantile is
nonnegative; grid discretization can otherwise push both bounds past the
estimate. -/
theorem lr_interval_contains_estimate (r : MlaeResult) (alpha : ℝ)
    (nOpt : Option ℕ) (cpf : ℝ → ℝ)
    (hθ : r.theta ∈ lrThetas r nOpt)
    (hq : 0 ≤ cpf (1 - alpha))
    (hpp : r.postProcessing = fun x => x)
    (hest : r.estimation = Real.sin r.theta ^ 2) :
    (likelihood_ratio_confint r alpha nOpt cpf).1 ≤ r.estimation ∧
    r.estimation ≤ (likelihood_ratio_confint r alpha nOpt cpf).2 := by
  simp only [likelihood_ratio_confint, hpp, hest]
  set A := (lrThetas r nOpt).filter
    (fun θ => decide (lrThres r alpha cpf ≤ lrLoglikelihood r θ)) with hA
  have hmemA : r.theta ∈ A := by
    rw [hA, List.mem_filter]
    refine ⟨hθ, decide_eq_true ?_⟩
    unfold lrThres
    linarith
  have hab : (1e-15 : ℝ) ≤ Real.pi / 2 - 1e-15 := by
    have h3 := Real.pi_gt_three
    norm_num
    linarith
  have hbound : ∀ x ∈ A, 0 ≤ x ∧ x ≤ Real.pi / 2 := by
    intro x hx
    have hx' : x ∈ lrThetas r nOpt := List.mem_of_mem_filter hx
    unfold lrThetas at hx'
    have hb := linspace_mem_bounds _ _ _ hab x hx'
    constructor
    · have : (0 : ℝ) ≤ 1e-15 := by norm_num
      linarith [hb.1]
    · have : (0 : ℝ) ≤ 1e-15 := by norm_num
      linarith [hb.2]
  have hminA : safe_min A 0 ≤ r.theta := safe_min_le A 0 r.theta hmemA
  have hmaxA : r.theta ≤ safe_max A (Real.pi / 2) :=
    le_safe_max A (Real.pi / 2) r.theta hmemA
  have hAne : A ≠ [] := List.ne_nil_of_mem hmemA
  have hminb := hbound _ (safe_min_mem A 0 hAne)
  have hmaxb := hbound _ (safe_max_mem A (Real.pi / 2) hAne)
  have hθb := hbound _ hmemA
  have hpi := Real.pi_pos
  have hsinmin : Real.sin (safe_min A 0) ≤ Real.sin r.theta := by
    apply Real.strictMonoOn_sin.monotoneOn _ _ hminA
    · exact Set.mem_Icc.mpr ⟨by linarith [hminb.1], hminb.2⟩
    · exact Set.mem_Icc.mpr ⟨by linarith [hθb.1], hθb.2⟩
  have hsinmax : Real.sin r.theta ≤ Real.sin (safe_max A (Real.pi / 2)) := by
    apply Real.strictMonoOn_sin.monotoneOn _ _ hmaxA
    · exact Set.mem_Icc.mpr ⟨by linarith [hθb.1], hθb.2⟩
    · exact Set.mem_Icc.mpr ⟨by linarith [hmaxb.1], hmaxb.2⟩
  constructor
  · exact pow_le_pow_left₀
      (Real.sin_nonneg_of_nonneg_of_le_pi hminb.1 (by linarith [hminb.2]))
      hsinmin 2
  · exact pow_le_pow_left₀
      (Real.sin_nonneg_of_nonneg_of_le_pi hθb.1 (by linarith [hθb.2]))
      hsinmax 2

/- A concrete sampled-regime result (one counts dictionary). -/
noncomputable def rC1sampled : MlaeResult :=
  ⟨[0], 1, [1], 0, 1/2, 1, fun x => x, [CircuitDatum.counts [("1", 1)]]⟩

/- A concrete analytic-regime result (one statevector). -/
noncomputable def rC1analytic : MlaeResult :=
  ⟨[0], 1, [1], 0, 1/2, 1, fun x => x, [CircuitDatum.statevector [1, 0]]⟩

/-- C1 counterexample: the claim also asserts that an unknown method name
never yields an interval "in either outcome regime"; but in the analytic
regime the degenerate branch fires before the method name is examined, so
compute_confidence_interval returns (â, â) even for the unknown name
"not_a_method" instead of failing. -/
theorem unsupported_kind_analytic_counterexample :
    compute_confidence_interval rC1analytic (5/100) "not_a_method" false
      (fun _ => 0) (fun _ => 0) = .ok (1/2, 1/2) := by
  simp [compute_confidence_interval, rC1analytic, CircuitDatum.isAnalytic]

/-- C1 amended: in the sampled regime every method name outside the
supported seven fails with NotImplementedError (for either value of
apply_post_processing); in the analytic regime the degenerate interval
(â, â) is returned for every method name, so the "never returns an
interval" part holds only in the sampled regime. -/
theorem unsupported_kind_behavior (r : MlaeResult) (alpha : ℝ)
    (kind : String) (npf cpf : ℝ → ℝ)
    (hkind : kind ∉ (["likelihood_ratio", "lr", "fisher", "fi",
      "observed_fisher", "observed_information", "oi"] : List String)) :
    (r.circuitResults.all CircuitDatum.isAnalytic = false →
      ∀ applyPP : Bool,
        compute_confidence_interval r alpha kind applyPP npf cpf =
          .error .notImplementedError) ∧
    (r.circuitResults.all CircuitDatum.isAnalytic = true →
      compute_confidence_interval r alpha kind false npf cpf =
        .ok (r.estimation, r.estimation)) := by
  have hk : kind ≠ "likelihood_ratio" ∧ kind ≠ "lr" ∧ kind ≠ "fisher" ∧
      kind ≠ "fi" ∧ kind ≠ "observed_fisher" ∧
      kind ≠ "observed_information" ∧ kind ≠ "oi" := by
    simp only [List.mem_cons, not_or] at hkind
    tauto
  obtain ⟨k1, k2, k3, k4, k5, k6, k7⟩ := hk
  constructor
  · intro hana applyPP
    simp [compute_confidence_interval, hana, k1, k2, k3, k4, k5, k6, k7]
  · intro hana
    simp [compute_confidence_interval, hana]

/-- C1 amended witness: the sampled-regime failure applied at the
concrete result rC1sampled with the unknown name "foo". -/
theorem unsupported_kind_behavior_witness :
    ("foo" ∉ (["likelihood_ratio", "lr", "fisher", "fi",
      "observed_fisher", "observed_information", "oi"] : List String)) ∧
    compute_confidence_interval rC1sampled (5/100) "foo" false
      (fun _ => 0) (fun _ => 0) = .error .notImplementedError := by
  refine ⟨by decide, ?_⟩
  exact (unsupported_kind_behavior rC1sampled (5/100) "foo"
    (fun _ => 0) (fun _ => 0) (by decide)).1 rfl false

/-- C2: whenever the outcome data came from the analytic regime (every
circuit result a statevector), compute_confidence_interval returns the
degenerate interval (â, â), for every alpha and every method name. -/
theorem analytic_degenerate_interval (r : MlaeResult) (alpha : ℝ)
    (kind : String) (npf cpf : ℝ → ℝ)
    (h : r.circuitResults.all CircuitDatum.isAnalytic = true) :
    compute_confidence_interval r alpha kind false npf cpf =
      .ok (r.estimation, r.estimation) := by
  simp [compute_confidence_interval, h]

/- A concrete analytic-regime result with two statevector entries. -/
noncomputable def rC2 : MlaeResult :=
  ⟨[0, 1], 1, [1/4, 1], 0, 1/4, 0, fun x => x,
    [CircuitDatum.statevector [1/2, 0], CircuitDatum.statevector [0, 1]]⟩

/-- C2 witness: the degenerate interval at the concrete analytic result
rC2 with method name "lr" and alpha 1/10. -/
theorem analytic_degenerate_interval_witness :
    (rC2.circuitResults.all CircuitDatum.isAnalytic = true) ∧
    compute_confidence_interval rC2 (1/10) "lr" false
      (fun _ => 0) (fun _ => 0) = .ok (1/4, 1/4) := by
  refine ⟨rfl, ?_⟩
  have h := analytic_degenerate_interval rC2 (1/10) "lr"
    (fun _ => 0) (fun _ => 0) rfl
  simpa [rC2] using h

/- Helper for C4: _fisher_confint returns exactly the raw Fisher interval
with result.post_processing applied to each bound. -/
lemma fisher_confint_eq_mapped_raw (r : MlaeResult) (alpha : ℝ)
    (observed : Bool) (npf : ℝ → ℝ) :
    fisher_confint r alpha observed npf =
      (r.postProcessing (rawFisherInterval r alpha observed npf).1,
        r.postProcessing (rawFisherInterval r alpha observed npf).2) := by
  simp only [fisher_confint, rawFisherInterval]
  rw [Prod.mk.injEq]
  constructor
  · congr 1
    ring
  · congr 1
    ring

/-- C4: in the sampled regime the 'fisher' and 'observed_fisher' methods
return bounds that already carry the result's post-processing when
apply_post_processing is False, and carry it twice when it is True; the
raw [0,1]-amplitude-space Fisher interval is never what is returned. -/
theorem fisher_interval_post_processing (r : MlaeResult) (alpha : ℝ)
    (npf cpf : ℝ → ℝ)
    (h : r.circuitResults.all CircuitDatum.isAnalytic = false) :
    (compute_confidence_interval r alpha "fisher" false npf cpf =
        .ok (r.postProcessing (rawFisherInterval r alpha false npf).1,
          r.postProcessing (rawFisherInterval r alpha false npf).2) ∧
      compute_confidence_interval r alpha "fisher" true npf cpf =
        .ok (r.postProcessing
            (r.postProcessing (rawFisherInterval r alpha false npf).1),
          r.postProcessing
            (r.postProcessing (rawFisherInterval r alpha false npf).2))) ∧
    (compute_confidence_interval r alpha "observed_fisher" false npf cpf =
        .ok (r.postProcessing (rawFisherInterval r alpha true npf).1,
          r.postProcessing (rawFisherInterval r alpha true npf).2) ∧
      compute_confidence_interval r alpha "observed_fisher" true npf cpf =
        .ok (r.postProcessing
            (r.postProcessing (rawFisherInterval r alpha true npf).1),
          r.postProcessing
            (r.postProcessing (rawFisherInterval r alpha true npf).2))) := by
  have hfc := fisher_confint_eq_mapped_raw r alpha false npf
  have hfco := fisher_confint_eq_mapped_raw r alpha true npf
  refine ⟨⟨?_, ?_⟩, ?_, ?_⟩ <;>
    simp [compute_confidence_interval, h, hfc, hfco]

/- A concrete sampled-regime result with non-identity post-processing
x ↦ x + 1, unit Fisher information and estimate 1/2. -/
noncomputable def rC4 : MlaeResult :=
  ⟨[0], 1, [1], 0, 1/2, 1, fun x => x + 1, [CircuitDatum.counts [("1", 1)]]⟩

/-- C4 witness: at rC4 (estimate 1/2, Fisher information 1, normal
quantile 1, post-processing x ↦ x+1), the raw interval is (-1/2, 3/2);
with apply_post_processing=False the returned bounds are (1/2, 5/2)
(post-processed once), with True they are (3/2, 7/2) (twice). -/
theorem fisher_interval_post_processing_witness :
    (rC4.circuitResults.all CircuitDatum.isAnalytic = false) ∧
    compute_confidence_interval rC4 (5/100) "fisher" false
      (fun _ => 1) (fun _ => 0) = .ok (1/2, 5/2) ∧
    compute_confidence_interval rC4 (5/100) "fisher" true
      (fun _ => 1) (fun _ => 0) = .ok (3/2, 7/2) := by
  have h := (fisher_interval_post_processing rC4 (5/100)
    (fun _ => 1) (fun _ => 0) rfl).1
  refine ⟨rfl, ?_, ?_⟩
  · rw [h.1]
    norm_num [rawFisherInterval, rC4, Real.sqrt_one]
  · rw [h.2]
    norm_num [rawFisherInterval, rC4, Real.sqrt_one]

/- Helper: the standard lower bound 1 − 1/x ≤ log x for positive x. -/
lemma one_sub_inv_le_log (x : ℝ) (hx : 0 < x) : 1 - 1/x ≤ Real.log x := by
  have h := Real.log_le_sub_one_of_pos (inv_pos.mpr hx)
  rw [Real.log_inv] at h
  have h' : -Real.log x ≤ 1/x - 1 := by
    simpa [one_div] using h
  linarith

lemma sin_eps_pos : 0 < Real.sin (1e-15) :=
  Real.sin_pos_of_pos_of_lt_pi (by norm_num)
    (lt_trans (by norm_num) Real.pi_gt_three)

lemma sin_eps_lt : Real.sin (1e-15) < 1e-15 := Real.sin_lt (by norm_num)

/- Helper: log(sin²(1e-15)) is at most −6·log 2. -/
lemma log_sin_sq_eps_le : Real.log (Real.sin (1e-15) ^ 2) ≤ -6 * Real.log 2 := by
  have h1 : Real.sin (1e-15) ≤ 1/8 :=
    le_trans (le_of_lt sin_eps_lt) (by norm_num)
  have h2 : Real.log (Real.sin (1e-15)) ≤ Real.log (1/8) :=
    Real.log_le_log sin_eps_pos h1
  have h3 : Real.log ((1 : ℝ)/8) = -(3 * Real.log 2) := by
    rw [show ((1 : ℝ)/8) = ((2 : ℝ) ^ (3 : ℕ))⁻¹ by norm_num, Real.log_inv,
      Real.log_pow]
    push_cast
    ring
  rw [Real.log_pow]
  push_cast
  rw [h3] at h2
  linarith

/- Helper: cos²(1e-15) is at least 9/10. -/
lemma cos_sq_eps_ge : (9 : ℝ)/10 ≤ Real.cos (1e-15) ^ 2 := by
  have hs1 := sin_eps_lt
  have hs0 : 0 ≤ Real.sin (1e-15) := le_of_lt sin_eps_pos
  have hsq : Real.sin (1e-15) ^ 2 ≤ (1e-15 : ℝ) ^ 2 := by nlinarith
  have hid := Real.sin_sq_add_cos_sq (1e-15)
  nlinarith

/- Helper: log(cos²(1e-15)) is at least −1/9. -/
lemma log_cos_sq_eps_ge : -(1 : ℝ)/9 ≤ Real.log (Real.cos (1e-15) ^ 2) := by
  have h1 := cos_sq_eps_ge
  have h2 : (0 : ℝ) < Real.cos (1e-15) ^ 2 := by linarith
  have h3 := one_sub_inv_le_log _ h2
  have h4 : 1/(Real.cos (1e-15) ^ 2) ≤ 10/9 := by
    have h5 := one_div_le_one_div_of_le (by norm_num : (0 : ℝ) < 9/10) h1
    calc 1/(Real.cos (1e-15) ^ 2) ≤ 1/((9 : ℝ)/10) := h5
      _ = 10/9 := by norm_num
  linarith

/- Helper: log(cos²(1e-15)) is nonpositive. -/
lemma log_cos_sq_eps_nonpos : Real.log (Real.cos (1e-15) ^ 2) ≤ 0 :=
  Real.log_nonpos (sq_nonneg _) (Real.cos_sq_le_one _)

/- Helper: sin²(π/4) = 1/2. -/
lemma sin_sq_pi_div_four : Real.sin (Real.pi/4) ^ 2 = 1/2 := by
  rw [Real.sin_pi_div_four, div_pow, Real.sq_sqrt (by norm_num : (0:ℝ) ≤ 2)]
  norm_num

/- Helper: cos²(π/4) = 1/2. -/
lemma cos_sq_pi_div_four : Real.cos (Real.pi/4) ^ 2 = 1/2 := by
  rw [Real.cos_pi_div_four, div_pow, Real.sq_sqrt (by norm_num : (0:ℝ) ≤ 2)]
  norm_num

/- Helper: a two-point numpy grid is exactly its endpoints. -/
lemma linspace_two (a b : ℝ) : linspace a b 2 = [a, b] := by
  unfold linspace
  rw [if_neg (by norm_num)]
  rw [show List.range 2 = [0, 1] from rfl]
  simp only [List.map_cons, List.map_nil]
  norm_num

/- A concrete sampled-regime result for the empty-support scenario:
schedule [0], 2 shots, 1 success, fitted angle π/4. -/
noncomputable def r10 : MlaeResult :=
  ⟨[0], 2, [1], Real.pi/4, 1/2, 0, fun x => x,
    [CircuitDatum.counts [("1", 1), ("0", 1)]]⟩

/- Helper: the scanned log-likelihood of r10 in closed form. -/
lemma lrLoglikelihood_r10 (θ : ℝ) :
    lrLoglikelihood r10 θ =
      Real.log (Real.sin θ ^ 2) + Real.log (Real.cos θ ^ 2) := by
  simp only [lrLoglikelihood, r10, List.enum, List.enumFrom, List.map_cons,
    List.map_nil, List.sum_cons, List.sum_nil, List.getD_cons_zero]
  push_cast
  ring_nf

/- Helper: the r10 threshold at alpha = 5/100 with chi-square quantile 1. -/
lemma lrThres_r10 :
    lrThres r10 (5/100) (fun _ => 1) = -(2 * Real.log 2) - 1/2 := by
  unfold lrThres
  rw [show r10.theta = Real.pi/4 from rfl, lrLoglikelihood_r10,
    sin_sq_pi_div_four, cos_sq_pi_div_four,
    show (1/2 : ℝ) = 2⁻¹ by norm_num, Real.log_inv]
  ring

/-- C10 witness: at the concrete result r10 scanned on the two-point grid,
with chi-square quantile 1, no grid angle's log-likelihood reaches the
threshold, and the returned interval is the full domain [0, 1]. -/
theorem lr_empty_support_full_domain_witness :
    (∀ θ ∈ lrThetas r10 (some 2),
      lrLoglikelihood r10 θ < lrThres r10 (5/100) (fun _ => 1)) ∧
    likelihood_ratio_confint r10 (5/100) (some 2) (fun _ => 1) = (0, 1) := by
  have hgrid : lrThetas r10 (some 2) = [1e-15, Real.pi/2 - 1e-15] := by
    unfold lrThetas lrNevals
    exact linspace_two _ _
  have hlog2 := Real.log_two_gt_d9
  have h1 : lrLoglikelihood r10 (1e-15) < -(2 * Real.log 2) - 1/2 := by
    rw [lrLoglikelihood_r10]
    have ha := log_sin_sq_eps_le
    have hb := log_cos_sq_eps_nonpos
    linarith
  have h2 : lrLoglikelihood r10 (Real.pi/2 - 1e-15) <
      -(2 * Real.log 2) - 1/2 := by
    rw [lrLoglikelihood_r10, Real.sin_pi_div_two_sub, Real.cos_pi_div_two_sub]
    have ha := log_sin_sq_eps_le
    have hb := log_cos_sq_eps_nonpos
    linarith
  have hforall : ∀ θ ∈ lrThetas r10 (some 2),
      lrLoglikelihood r10 θ < lrThres r10 (5/100) (fun _ => 1) := by
    intro θ hθ
    rw [hgrid] at hθ
    rw [lrThres_r10]
    rcases List.mem_cons.mp hθ with h | h
    · subst h; exact h1
    · rcases List.mem_cons.mp h with h' | h'
      · subst h'; exact h2
      · cases h'
  refine ⟨hforall, ?_⟩
  have hfull := (lr_empty_support_full_domain r10 (5/100) (some 2)
    (fun _ => 1) hforall).2
  simpa [r10] using hfull

/- A concrete sampled-regime result for the containment counterexample:
schedule [0], 1 shot, 1 success, fitted angle π/4, estimate 1/2. -/
noncomputable def r9 : MlaeResult :=
  ⟨[0], 1, [1], Real.pi/4, 1/2, 0, fun x => x,
    [CircuitDatum.counts [("1", 1)]]⟩

/- Helper: the scanned log-likelihood of r9 in closed form (the failure
term vanishes because every shot succeeded). -/
lemma lrLoglikelihood_r9 (θ : ℝ) :
    lrLoglikelihood r9 θ = Real.log (Real.sin θ ^ 2) := by
  simp only [lrLoglikelihood, r9, List.enum, List.enumFrom, List.map_cons,
    List.map_nil, List.sum_cons, List.sum_nil, List.getD_cons_zero]
  push_cast
  ring_nf

/- Helper: the r9 threshold at alpha = 5/100 with chi-square quantile 1. -/
lemma lrThres_r9 :
    lrThres r9 (5/100) (fun _ => 1) = -Real.log 2 - 1/2 := by
  unfold lrThres
  rw [show r9.theta = Real.pi/4 from rfl, lrLoglikelihood_r9,
    sin_sq_pi_div_four, show (1/2 : ℝ) = 2⁻¹ by norm_num, Real.log_inv]

/-- C9 counterexample: on the result r9 (θ̂ = π/4, â = 1/2, identity
post-processing) scanned on the two-point grid with chi-square quantile 1,
only the grid angle π/2 − 1e-15 clears the threshold, so the returned
interval is [cos²(1e-15), cos²(1e-15)], whose lower bound exceeds the
point estimate 1/2: the likelihood-ratio interval does not contain â. -/
theorem lr_containment_counterexample :
    ¬ ((likelihood_ratio_confint r9 (5/100) (some 2) (fun _ => 1)).1 ≤
        r9.estimation ∧
      r9.estimation ≤
        (likelihood_ratio_confint r9 (5/100) (some 2) (fun _ => 1)).2) := by
  have hlog2 := Real.log_two_gt_d9
  have hgrid : lrThetas r9 (some 2) = [1e-15, Real.pi/2 - 1e-15] := by
    unfold lrThetas lrNevals
    exact linspace_two _ _
  have hc1 : decide (lrThres r9 (5/100) (fun _ => 1) ≤
      lrLoglikelihood r9 (1e-15)) = false := by
    apply decide_eq_false
    rw [lrLoglikelihood_r9, lrThres_r9]
    have ha := log_sin_sq_eps_le
    intro hcon
    linarith
  have hc2 : decide (lrThres r9 (5/100) (fun _ => 1) ≤
      lrLoglikelihood r9 (Real.pi/2 - 1e-15)) = true := by
    apply decide_eq_true
    rw [lrLoglikelihood_r9, lrThres_r9, Real.sin_pi_div_two_sub]
    have ha := log_cos_sq_eps_ge
    linarith
  have habove : (lrThetas r9 (some 2)).filter
      (fun θ => decide (lrThres r9 (5/100) (fun _ => 1) ≤
        lrLoglikelihood r9 θ)) = [Real.pi/2 - 1e-15] := by
    rw [hgrid]
    simp only [List.filter_cons, List.filter_nil, hc1, hc2]
    simp
  have hlow : (likelihood_ratio_confint r9 (5/100) (some 2)
      (fun _ => 1)).1 = Real.sin (Real.pi/2 - 1e-15) ^ 2 := by
    simp only [likelihood_ratio_confint]
    rw [habove]
    simp [safe_min, r9]
  intro hcon
  have h1 := hcon.1
  rw [hlow, Real.sin_pi_div_two_sub] at h1
  have h9 := cos_sq_eps_ge
  rw [show r9.estimation = 1/2 from rfl] at h1
  linarith

/- A concrete sampled-regime result whose fitted angle is the first
two-point grid angle 1e-15 (so the amended containment applies). -/
noncomputable def r9w : MlaeResult :=
  ⟨[0], 1, [1], 1e-15, Real.sin (1e-15) ^ 2, 0, fun x => x,
    [CircuitDatum.counts [("1", 1)]]⟩

/-- C9 amended witness: the containment theorem applied at the concrete
result r9w, whose angle lies on the scanned grid. -/
theorem lr_interval_contains_estimate_witness :
    (r9w.theta ∈ lrThetas r9w (some 2) ∧
      (0 : ℝ) ≤ (fun _ : ℝ => (1 : ℝ)) (1 - 5/100) ∧
      r9w.postProcessing = (fun x => x) ∧
      r9w.estimation = Real.sin r9w.theta ^ 2) ∧
    ((likelihood_ratio_confint r9w (5/100) (some 2) (fun _ => 1)).1 ≤
        r9w.estimation ∧
      r9w.estimation ≤
        (likelihood_ratio_confint r9w (5/100) (some 2) (fun _ => 1)).2) := by
  have hθ : r9w.theta ∈ lrThetas r9w (some 2) := by
    have hgrid : lrThetas r9w (some 2) = [1e-15, Real.pi/2 - 1e-15] := by
      unfold lrThetas lrNevals
      exact linspace_two _ _
    rw [hgrid]
    exact List.mem_cons_self _ _
  refine ⟨⟨hθ, by norm_num, rfl, rfl⟩, ?_⟩
  exact lr_interval_contains_estimate r9w (5/100) (some 2) (fun _ => 1)
    hθ (by norm_num) rfl rfl

end Mlae
